import Mathlib

/-!
# Verification of the zircon condition-variable template and display fence

This file gives a shallow embedding in Lean 4 of the two cores of the
repository:

* `system/ulib/sync/include/lib/sync/internal/condvar-template.h`
  (the MUSL-derived condition variable: spinlock word, waiter list,
  `timedwait`, `signal`);
* `system/dev/display/display/fence.cpp`
  (the display `Fence` / `FenceReference` objects).

Pointers are modelled as `Option Nat` (heap addresses); a heap is a total
function `Nat → node`.  Stateful code is embedded as explicit state-passing
functions; interactions with the kernel (futex results, dispatcher
registration status, allocation success) are oracle parameters; side effects
on external objects (futex wakes, event signals, callback invocations,
async-wait registration) are recorded as explicit event traces.
-/

namespace Zircon

/-! ## Status codes (zircon/errors.h) -/

def ZX_OK : Int := 0
def ZX_ERR_BAD_STATE : Int := -20
def ZX_ERR_TIMED_OUT : Int := -21

/-! ## Spinlock word states (condvar-template.h, lines 47-51) -/

def UNLOCKED : Nat := 0
def LOCKED_NO_WAITERS : Nat := 1
def LOCKED_MAYBE_WAITERS : Nat := 2

/-! ## Waiter states (condvar-template.h, lines 110-114) -/

def WAITING : Nat := 0
def SIGNALED : Nat := 1
def LEAVING : Nat := 2

/-! ## The internal spinlock: `unlock` and the spin phase of `wait`

`unlock` (lines 98-102) atomically exchanges the lock word to `UNLOCKED` and
issues `_zx_futex_wake(l, 1)` iff the exchanged-out value was
`LOCKED_MAYBE_WAITERS`.  We return the new word together with the list of
futex-wake counts issued.

`wait` (lines 71-83) first runs a spin loop of 100 iterations, each of which
re-loads the futex word: it returns early as soon as a load differs from
`current_value`, and only after 100 equal loads falls through to the
futex-wait loop.  We model the sequence of atomic loads by an oracle
`load : Nat → Nat` giving the value observed by the i-th load, and record how
many loads the spin phase performed and whether the futex phase was reached. -/

def unlock (l : Nat) : Nat × List Nat :=
  let old := l
  (UNLOCKED, if old = LOCKED_MAYBE_WAITERS then [1] else [])

def spinChecks (load : Nat → Nat) (current : Nat) : Nat → Nat → Nat × Bool
  | i, 0 => (i, true)
  | i, k + 1 => if load i = current then spinChecks load current (i + 1) k else (i, false)

def waitSpinPhase (load : Nat → Nat) (current : Nat) : Nat × Bool :=
  spinChecks load current 0 100

/-! ## The wait loop and status flow of `timedwait` (lines 160-270)

The wait loop (lines 160-170) repeatedly calls
`_zx_futex_wait(&node.barrier, LOCKED_MAYBE_WAITERS, deadline)`; it exits with
`ZX_ERR_TIMED_OUT` when the kernel reports a timeout, and with `ZX_OK` when
after a non-timeout return the barrier word is observed different from
`LOCKED_MAYBE_WAITERS`; otherwise it loops.  The oracle is the list of
(futex-wait status, barrier value loaded afterwards) pairs for the successive
iterations; `none` means the trace ended with the waiter still blocked.

`timedwaitStatus` is the status flow from the CAS on `node.state` (line 172)
to the final `return status` (line 269):

* if the CAS `WAITING → LEAVING` succeeds (i.e. the state at the CAS is still
  `WAITING`), the waiter self-unlinks and returns `ZX_ERR_TIMED_OUT`, or
  `ZX_ERR_BAD_STATE` when the plain mutex `lock` fails (lines 221-224);
* otherwise the waiter proceeds to the wake path: `status` is overwritten
  with `ZX_ERR_BAD_STATE` only when `lock_with_waiters` fails (lines 258-260),
  and the loop status is returned unchanged otherwise (line 269). -/

def waitLoop : List (Int × Nat) → Option Int
  | [] => none
  | (st, bar) :: rest =>
    if st = ZX_ERR_TIMED_OUT then some ZX_ERR_TIMED_OUT
    else if bar ≠ LOCKED_MAYBE_WAITERS then some ZX_OK
    else waitLoop rest

def timedwaitStatus (loopStatus : Int) (stateAtCas : Nat)
    (lockFails : Bool) (lwwFails : Bool) : Int :=
  if stateAtCas = WAITING then
    if lockFails then ZX_ERR_BAD_STATE else ZX_ERR_TIMED_OUT
  else
    if lwwFails then ZX_ERR_BAD_STATE else loopStatus

/-! ## The display fence (fence.cpp)

`FenceReference` holds up to two release-chain targets; `Fence` holds the
current reference slot, the strong reference count, and the FIFO queue
`armed_refs` of armed references.  References are identified by heap
addresses (`Nat`); the per-reference data lives in `refHeap`.

Side effects on external collaborators are recorded as `FEvent` traces:
clearing the event's SIGNALLED bit, signalling a release-chain target's
fence event, delivering `OnFenceFired`, and registering the async wait
(`ready_wait_.Begin`). -/

inductive FEvent
  | clearSignaled
  | signalTarget (t : Nat)
  | fenceFired (r : Nat)
  | beginWait
  deriving DecidableEq, Repr

structure FenceReference where
  release_fence1 : Option Nat := none
  release_fence2 : Option Nat := none
  deriving DecidableEq, Repr

structure Fence where
  cur_ref : Option Nat := none
  ref_count : Nat := 0
  armed_refs : List Nat := []
  refHeap : Nat → FenceReference := fun _ => {}

/-- Embedding of `Fence::CreateRef` (fence.cpp lines 10-18): `cur_ref_` is assigned the
result of `fbl::AdoptRef(new (&ac) ...)` — the fresh reference when the
allocation succeeds, the null reference when it fails; `ref_count_` is
incremented only when `ac.check()` holds, and `ac.check()` is returned. -/
def Fence.createRef (s : Fence) (allocOk : Bool) (newRef : Nat) : Fence × Bool :=
  let s1 := { s with cur_ref := if allocOk then some newRef else none }
  if allocOk then ({ s1 with ref_count := s1.ref_count + 1 }, allocOk)
  else (s1, allocOk)

/-- Embedding of `FenceReference::OnReady` (fence.cpp lines 94-103): signal
`release_fence1_` if present and drop the handle, then the same for
`release_fence2_`. -/
def FenceReference.onReady (f : FenceReference) : List FEvent × FenceReference :=
  let s1 :=
    match f.release_fence1 with
    | some t => ([FEvent.signalTarget t], { f with release_fence1 := none })
    | none => (([] : List FEvent), f)
  let s2 :=
    match s1.2.release_fence2 with
    | some t => ([FEvent.signalTarget t], { s1.2 with release_fence2 := none })
    | none => (([] : List FEvent), s1.2)
  (s1.1 ++ s2.1, s2.2)

/-- Embedding of `Fence::OnReady` (fence.cpp lines 55-68): clear the SIGNALLED bit, pop
the front of `armed_refs_`, run the popped reference's `OnReady`, deliver
`OnFenceFired`, and re-register the async wait iff `armed_refs_` is still
non-empty.  `pop_front` on an empty queue is an assertion failure in fbl and
unreachable under the dispatcher contract; we return the state unchanged
there. -/
def Fence.onReady (s : Fence) : List FEvent × Fence :=
  match s.armed_refs with
  | [] => ([], s)
  | r :: rest =>
    let pr := (s.refHeap r).onReady
    (FEvent.clearSignaled :: (pr.1 ++ [FEvent.fenceFired r])
        ++ (if rest.isEmpty then [] else [FEvent.beginWait]),
     { s with armed_refs := rest,
              refHeap := fun x => if x = r then pr.2 else s.refHeap x })

/-- Embedding of `Fence::OnRefArmed` (fence.cpp lines 36-49), the body of
`FenceReference::StartReadyWait` (lines 80-82): when `armed_refs_` is empty,
register the async wait (`ready_wait_.Begin`, whose status is the oracle
`beginStatus`) and return that status verbatim on failure without appending;
otherwise append the reference at the back and return `ZX_OK`. -/
def Fence.onRefArmed (s : Fence) (r : Nat) (beginStatus : Int) :
    List FEvent × Fence × Int :=
  if s.armed_refs.isEmpty then
    if beginStatus ≠ ZX_OK then ([FEvent.beginWait], s, beginStatus)
    else ([FEvent.beginWait], { s with armed_refs := s.armed_refs ++ [r] }, ZX_OK)
  else
    ([], { s with armed_refs := s.armed_refs ++ [r] }, ZX_OK)

/-! ## The condition variable's waiter list

A `Waiter` (condvar-template.h lines 116-122) is identified by the address of
its stack frame, modelled as a `Nat`; null pointers are `none`.  The `notify`
pointer always points at a signaller's `ref` counter, so we only record
whether it was set. -/

@[ext]
structure Waiter where
  prev : Option Nat := none
  next : Option Nat := none
  state : Nat := WAITING
  notify : Bool := false

/-- The `Condvar` state required by the template (lines 16-19): the two list
pointers plus the heap of waiter nodes.  The internal spinlock word only
serialises the operations and carries no list information, so it is not part
of the embedded state. -/
@[ext]
structure Condvar where
  head : Option Nat
  tail : Option Nat
  heap : Nat → Waiter

/-- The enqueue step of `timedwait` (lines 136-146): the fresh stack node
(`Waiter node;`, all fields defaulted) gets `next := c->head`, becomes the
new `head`, and either becomes `tail` (empty list) or is linked back from the
old head via `node.next->prev = &node`. -/
def enqueue (c : Condvar) (a : Nat) : Condvar :=
  let node : Waiter := { next := c.head }
  let h1 := fun x => if x = a then node else c.heap x
  match c.tail with
  | none => { head := some a, tail := some a, heap := h1 }
  | some _ =>
    match c.head with
    | some hd =>
      { head := some a, tail := c.tail,
        heap := fun x => if x = hd then { h1 hd with prev := some a } else h1 x }
    | none => { head := some a, tail := c.tail, heap := h1 }

/-- The self-unlink of a timed-out waiter (lines 188-199): first the head
section (`head = node.next` when the node is the head, else
`node.prev->next = node.next` when `prev` is non-null), then the tail
section (`tail = node.prev` when the node is the tail, else
`node.next->prev = node.prev` when `next` is non-null). -/
def unlink (c : Condvar) (a : Nat) : Condvar :=
  let nd := c.heap a
  let headRes : Option Nat × (Nat → Waiter) :=
    if c.head = some a then (nd.next, c.heap)
    else
      match nd.prev with
      | some p => (c.head, fun x => if x = p then { c.heap p with next := nd.next } else c.heap x)
      | none => (c.head, c.heap)
  let h1 := headRes.2
  let tailRes : Option Nat × (Nat → Waiter) :=
    if c.tail = some a then (nd.prev, h1)
    else
      match nd.next with
      | some q => (c.tail, fun x => if x = q then { h1 q with prev := nd.prev } else h1 x)
      | none => (c.tail, h1)
  { head := headRes.1, tail := tailRes.1, heap := tailRes.2 }

/-- The list split at the walker position in `signal` (lines 299-308): when
the walk stopped at a node `p`, clear `p->next->prev` (if any), clear
`p->next`, and make `p` the new tail; when the walk ran past the head,
clear `head` and set `tail` to null. -/
def signalSplit (c : Condvar) (p : Option Nat) : Condvar :=
  match p with
  | some a =>
    let nd := c.heap a
    let h1 :=
      match nd.next with
      | some q => fun x => if x = q then { c.heap q with prev := none } else c.heap x
      | none => c.heap
    { head := c.head, tail := some a,
      heap := fun x => if x = a then { h1 a with next := none } else h1 x }
  | none => { head := none, tail := none, heap := c.heap }

/-- The outcome of the claiming walk of `signal` (lines 276-298): the updated
heap, the final walker position `p`, the `first` claimed waiter, the `ref`
rendezvous counter, and the addresses claimed in visit order (tail towards
head, i.e. oldest first). -/
structure SignalRes where
  heap : Nat → Waiter
  p : Option Nat
  first : Option Nat
  ref : Nat
  claimed : List Nat

/-- The claiming walk of `signal` (lines 282-298): starting from `p` and
walking `prev` links while `n` is non-zero and `p` is non-null, CAS each
node `WAITING → SIGNALED`; on success decrement `n`, record the node as
`first` if none is recorded yet; on failure (a LEAVING waiter) increment
`ref` and set the node's `notify`.  The loop in the source follows a pointer
chain; the embedding carries a fuel argument, which is immaterial once it is
at least the list length. -/
def signalLoop (h : Nat → Waiter) (p : Option Nat) (n : Int) (first : Option Nat)
    (ref : Nat) (claimed : List Nat) : Nat → SignalRes
  | 0 => ⟨h, p, first, ref, claimed⟩
  | fuel + 1 =>
    if n = 0 then ⟨h, p, first, ref, claimed⟩
    else
      match p with
      | none => ⟨h, p, first, ref, claimed⟩
      | some a =>
        let nd := h a
        if nd.state = WAITING then
          signalLoop (fun x => if x = a then { nd with state := SIGNALED } else h x)
            nd.prev (n - 1) (if first = none then some a else first) ref
            (claimed ++ [a]) fuel
        else
          signalLoop (fun x => if x = a then { nd with notify := true } else h x)
            nd.prev n first (ref + 1) claimed fuel

/-- Embedding of `signal(c, n)` (lines 274-322) restricted to its effect on the condvar
state: run the claiming walk from `tail`, then split the list at the final
walker position.  (The subsequent `ref` rendezvous and the `unlock` of
`first->barrier` act on other threads' state; `first` is reported in the
result so that theorems can speak about which barrier is unlocked.) -/
def signal (c : Condvar) (n : Int) (fuel : Nat) : Condvar × SignalRes :=
  let r := signalLoop c.heap c.tail n none 0 [] fuel
  (signalSplit { c with heap := r.heap } r.p, r)

/-- The `waiters_delta` computation of the wake path of `timedwait`
(lines 240-246): start from 0, increment when the node has no `prev`,
decrement when it has no `next`. -/
def waitersDelta (nd : Waiter) : Int :=
  let d : Int := 0
  let d := if nd.prev = none then d + 1 else d
  if nd.next = none then d - 1 else d

/-! ## The list invariant -/

/-- Adjacency in the doubly-linked waiter list: `b` follows `a` (towards the
tail) with both link directions consistent. -/
def adj (h : Nat → Waiter) (a b : Nat) : Prop :=
  (h a).next = some b ∧ (h b).prev = some a

/-- The condvar list invariant: `l` lists the waiter addresses from `head`
to `tail` (newest to oldest).  `head`/`tail` point at the ends, addresses
are distinct, consecutive nodes are doubly linked, the head's `prev` and the
tail's `next` are null.  The empty `l` is exactly the both-null case; a
non-empty `l` gives the chain of `prev` links from `tail` reaching `head`
and the `next` links forming the reverse chain. -/
def cvInv (c : Condvar) (l : List Nat) : Prop :=
  c.head = l.head? ∧ c.tail = l.getLast? ∧ l.Nodup ∧
    List.Chain' (adj c.heap) l ∧
    (∀ a, l.head? = some a → (c.heap a).prev = none) ∧
    (∀ a, l.getLast? = some a → (c.heap a).next = none)

/-! ## Chain helper lemmas -/

lemma chain'_imp_mem {R S : Nat → Nat → Prop} :
    ∀ {l : List Nat}, (∀ a ∈ l, ∀ b ∈ l, R a b → S a b) →
      List.Chain' R l → List.Chain' S l := by
  intro l
  induction l with
  | nil => intro _ _; simp
  | cons a t ih =>
    intro hrs hc
    rw [List.chain'_cons'] at hc ⊢
    refine ⟨fun y hy => ?_, ?_⟩
    · exact hrs a (by simp) y (by simp [List.mem_of_mem_head? hy]) (hc.1 y hy)
    · exact ih (fun x hx b hb h => hrs x (by simp [hx]) b (by simp [hb]) h) hc.2

/-- Congruence: a heap change outside the list preserves the chain. -/
lemma chain'_adj_congr {h h' : Nat → Waiter} {l : List Nat}
    (hh : ∀ x ∈ l, h' x = h x) :
    List.Chain' (adj h) l → List.Chain' (adj h') l := by
  refine chain'_imp_mem (fun a ha b hb hab => ?_)
  rw [adj, hh a ha, hh b hb]
  exact hab

/-- Congruence allowing the first node's `prev` to change. -/
lemma chain'_adj_cons_congr {h h' : Nat → Waiter} {b : Nat} {t : List Nat}
    (hb : (h' b).next = (h b).next) (ht : ∀ x ∈ t, h' x = h x) :
    List.Chain' (adj h) (b :: t) → List.Chain' (adj h') (b :: t) := by
  intro hc
  rw [List.chain'_cons'] at hc ⊢
  refine ⟨fun y hy => ?_, chain'_adj_congr ht hc.2⟩
  have hyt : y ∈ t := List.mem_of_mem_head? hy
  have := hc.1 y hy
  rw [adj, hb, ht y hyt]
  exact this

/-- Congruence allowing the last node's `next` to change. -/
lemma chain'_adj_last_congr {h h' : Nat → Waiter} {p : Nat} {s : List Nat}
    (hp : (h' p).prev = (h p).prev) (hs : ∀ x ∈ s, h' x = h x) :
    List.Chain' (adj h) (s ++ [p]) → List.Chain' (adj h') (s ++ [p]) := by
  intro hc
  rw [List.chain'_append] at hc ⊢
  refine ⟨chain'_adj_congr hs hc.1, by simp, fun x hx y hy => ?_⟩
  simp only [List.head?_cons, Option.mem_def, Option.some.injEq] at hy
  subst hy
  have hxs : x ∈ s := List.mem_of_mem_getLast? hx
  have := hc.2.2 x hx p (by simp)
  rw [adj, hp, hs x hxs]
  exact this

/-- In a chain, a member of the tail has a non-null `prev`. -/
lemma mem_tail_prev_some {h : Nat → Waiter} {a : Nat} :
    ∀ {b : Nat} {t : List Nat}, List.Chain' (adj h) (b :: t) → a ∈ t →
      ∃ y, (h a).prev = some y := by
  intro b t
  induction t generalizing b with
  | nil => intro _ ha; exact absurd ha (by simp)
  | cons c t' ih =>
    intro hc ha
    rcases List.mem_cons.mp ha with rfl | ha'
    · exact ⟨b, ((List.chain'_cons.mp hc).1).2⟩
    · exact ih (List.chain'_cons.mp hc).2 ha'

/-- In a chain with a null-`prev` head, `prev = none` characterises the
head. -/
lemma prev_none_iff_head {h : Nat → Waiter} {l : List Nat} {a : Nat}
    (hc : List.Chain' (adj h) l)
    (hhead : ∀ x, l.head? = some x → (h x).prev = none)
    (ha : a ∈ l) :
    (h a).prev = none ↔ l.head? = some a := by
  constructor
  · intro hp
    rcases l with _ | ⟨b, t⟩
    · exact absurd ha (by simp)
    · rcases List.mem_cons.mp ha with rfl | ha'
      · rfl
      · rcases mem_tail_prev_some hc ha' with ⟨y, hy⟩
        rw [hy] at hp
        exact absurd hp (by simp)
  · exact hhead a

/-- In a chain with a null-`next` tail, `next = none` characterises the
last node. -/
lemma next_none_iff_getLast {h : Nat → Waiter} {l : List Nat} {a : Nat}
    (hc : List.Chain' (adj h) l)
    (hlast : ∀ x, l.getLast? = some x → (h x).next = none)
    (ha : a ∈ l) :
    (h a).next = none ↔ l.getLast? = some a := by
  constructor
  · intro hn
    induction l with
    | nil => exact absurd ha (by simp)
    | cons b t ih =>
      rcases t with _ | ⟨c, t'⟩
      · simpa using (List.mem_singleton.mp ha).symm
      · rcases List.mem_cons.mp ha with rfl | ha'
        · have : (h a).next = some c := ((List.chain'_cons.mp hc).1).1
          rw [hn] at this
          exact absurd this (by simp)
        · rw [List.getLast?_cons_cons]
          exact ih (List.chain'_cons.mp hc).2 (fun x hx => hlast x (by
            rw [List.getLast?_cons_cons]; exact hx)) ha'
  · exact hlast a

/-! ## Invariant preservation lemmas -/

/-- The enqueue step of `timedwait` preserves the list invariant: a fresh
node becomes the new head. -/
lemma cvInv_enqueue {c : Condvar} {l : List Nat} {a : Nat}
    (hinv : cvInv c l) (ha : a ∉ l) : cvInv (enqueue c a) (a :: l) := by
  rcases c with ⟨ch, ct, hp⟩
  obtain ⟨hh, ht, hnd, hch, hhp, htn⟩ := hinv
  simp only at hh ht
  rcases l with _ | ⟨hd, t⟩
  · simp only [List.head?_nil] at hh
    simp only [List.getLast?_nil] at ht
    subst hh; subst ht
    refine ⟨rfl, rfl, by simp, by simp, ?_, ?_⟩
    · intro x hx
      simp only [List.head?_cons, Option.some.injEq] at hx
      subst hx
      simp [enqueue]
    · intro x hx
      simp only [List.getLast?_singleton, Option.some.injEq] at hx
      subst hx
      simp [enqueue]
  · have hane : a ≠ hd := fun h => ha (h ▸ List.mem_cons_self hd t)
    have hdt : hd ∉ t := (List.nodup_cons.mp hnd).1
    simp only [List.head?_cons] at hh
    subst hh
    obtain ⟨w, hw⟩ : ∃ w, (hd :: t).getLast? = some w :=
      ⟨(hd :: t).getLast (by simp), List.getLast?_eq_getLast _ _⟩
    rw [hw] at ht
    subst ht
    have hres : enqueue ⟨some hd, some w, hp⟩ a =
        ⟨some a, some w, fun x => if x = hd
          then { (if hd = a then ({ next := some hd } : Waiter) else hp hd) with prev := some a }
          else if x = a then ({ next := some hd } : Waiter) else hp x⟩ := rfl
    have hF : (fun x => if x = hd
          then { (if hd = a then ({ next := some hd } : Waiter) else hp hd) with prev := some a }
          else if x = a then ({ next := some hd } : Waiter) else hp x)
        = fun x => if x = hd then { hp hd with prev := some a }
          else if x = a then ({ next := some hd } : Waiter) else hp x := by
      simp [if_neg (Ne.symm hane)]
    rw [hres, hF]
    refine ⟨rfl, ?_, List.nodup_cons.mpr ⟨ha, hnd⟩, ?_, ?_, ?_⟩
    · rw [List.getLast?_cons_cons]
      exact hw.symm
    · rw [List.chain'_cons]
      constructor
      · constructor
        · simp [if_neg hane]
        · simp
      · refine chain'_adj_cons_congr (h := hp) (by simp) ?_ hch
        intro x hx
        have hx1 : x ≠ hd := fun h => hdt (h ▸ hx)
        have hx2 : x ≠ a := fun h => ha (h ▸ List.mem_cons_of_mem hd hx)
        simp [if_neg hx1, if_neg hx2]
    · intro x hx
      simp only [List.head?_cons, Option.some.injEq] at hx
      subst hx
      simp [if_neg hane]
    · intro x hx
      rw [List.getLast?_cons_cons, hw] at hx
      injection hx with hx
      subst hx
      have hwmem : w ∈ hd :: t := List.mem_of_mem_getLast? hw
      have hwn : (hp w).next = none := htn w hw
      by_cases hwh : w = hd
      · subst hwh
        simpa using hwn
      · have hwa : w ≠ a := fun h => ha (h ▸ hwmem)
        simp [if_neg hwh, if_neg hwa, hwn]

/-- The self-unlink of a timed-out waiter preserves the list invariant:
removing the node at `a` from anywhere in the list leaves a well-formed
list. -/
lemma cvInv_unlink {c : Condvar} {l1 l2 : List Nat} {a : Nat}
    (hinv : cvInv c (l1 ++ a :: l2)) : cvInv (unlink c a) (l1 ++ l2) := by
  rcases c with ⟨ch, ct, hp⟩
  obtain ⟨hh, ht, hnd, hch, hhp, htn⟩ := hinv
  simp only at hh ht
  have hnd' := List.nodup_middle.mp hnd
  have ha12 : a ∉ l1 ++ l2 := (List.nodup_cons.mp hnd').1
  have hnd12 : (l1 ++ l2).Nodup := (List.nodup_cons.mp hnd').2
  have ha1 : a ∉ l1 := fun h => ha12 (List.mem_append_left _ h)
  have ha2 : a ∉ l2 := fun h => ha12 (List.mem_append_right _ h)
  rw [List.chain'_append] at hch
  obtain ⟨hch1, hch2, hjun⟩ := hch
  rcases List.eq_nil_or_concat' l1 with rfl | ⟨init, pl, rfl⟩
  · -- the node is the head of the list
    simp only [List.nil_append, List.head?_cons] at hh
    subst hh
    have hprev : (hp a).prev = none := hhp a (by simp)
    rcases l2 with _ | ⟨b, t⟩
    · -- the node is the only element
      simp only [List.nil_append, List.getLast?_singleton] at ht
      subst ht
      have hnext : (hp a).next = none := htn a (by simp)
      have hres : unlink ⟨some a, some a, hp⟩ a = ⟨(hp a).next, (hp a).prev, hp⟩ := by
        simp [unlink]
      rw [hres, hnext, hprev]
      exact ⟨rfl, rfl, List.nodup_nil, List.chain'_nil, by simp, by simp⟩
    · -- the node has a successor towards the tail
      obtain ⟨w, hw⟩ : ∃ w, (b :: t).getLast? = some w :=
        ⟨(b :: t).getLast (by simp), List.getLast?_eq_getLast _ _⟩
      simp only [List.nil_append, List.getLast?_cons_cons, hw] at ht
      subst ht
      have hwa : w ≠ a := fun h =>
        ha2 (h ▸ List.mem_of_mem_getLast? hw)
      have hnext : (hp a).next = some b := ((List.chain'_cons.mp hch2).1).1
      have hchbt : List.Chain' (adj hp) (b :: t) := (List.chain'_cons.mp hch2).2
      have hndbt : (b :: t).Nodup := by simpa using hnd12
      have hhead : (unlink ⟨some a, some w, hp⟩ a).head = some b := by
        simp [unlink, hnext]
      have htail : (unlink ⟨some a, some w, hp⟩ a).tail = some w := by
        simp [unlink, hnext, hwa]
      have hheap : (unlink ⟨some a, some w, hp⟩ a).heap =
          fun x => if x = b then { hp b with prev := none } else hp x := by
        funext x
        simp [unlink, hnext, hprev, hwa]
      refine ⟨by rw [hhead]; simp, by rw [htail]; simpa using hw.symm, by simpa using hnd12,
        ?_, ?_, ?_⟩
      · rw [hheap]
        simp only [List.nil_append]
        refine chain'_adj_cons_congr (h := hp) (by simp) ?_ hchbt
        intro x hx
        have hxb : x ≠ b := fun h => (List.nodup_cons.mp hndbt).1 (h ▸ hx)
        simp [hxb]
      · intro x hx
        simp only [List.nil_append, List.head?_cons, Option.some.injEq] at hx
        subst hx
        rw [hheap]
        simp
      · intro x hx
        simp only [List.nil_append] at hx
        rw [hw] at hx
        injection hx with hx
        subst hx
        have hwn : (hp w).next = none := htn w (by simpa using hw)
        rw [hheap]
        by_cases hwb : w = b
        · subst hwb; simpa using hwn
        · simp [hwb, hwn]
  · -- the node has a predecessor towards the head
    have hl1ne : init ++ [pl] ≠ [] := by simp
    obtain ⟨p1, hp1⟩ : ∃ p1, (init ++ [pl]).head? = some p1 := by
      rcases init with _ | ⟨x, s⟩ <;> exact ⟨_, rfl⟩
    have hp1mem : p1 ∈ init ++ [pl] := List.mem_of_mem_head? hp1
    have hp1a : p1 ≠ a := fun h => ha1 (h ▸ hp1mem)
    have hplmem : pl ∈ init ++ [pl] := by simp
    have hpla : pl ≠ a := fun h => ha1 (h ▸ hplmem)
    have hplinit : pl ∉ init := by
      have := List.disjoint_of_nodup_append hnd12.of_append_left
      exact fun h => this h (by simp)
    have hgl1 : (init ++ [pl]).getLast? = some pl := by
      rw [List.getLast?_concat]
    have hadj1 : adj hp pl a := hjun pl hgl1 a rfl
    have hprev : (hp a).prev = some pl := hadj1.2
    rw [List.head?_append_of_ne_nil _ hl1ne, hp1] at hh
    subst hh
    have hhpfull : ((init ++ [pl]) ++ a :: l2).head? = some p1 := by
      rw [List.head?_append_of_ne_nil _ hl1ne, hp1]
    have hp1prev : (hp p1).prev = none := hhp p1 hhpfull
    rcases l2 with _ | ⟨b, t⟩
    · -- the node is the tail
      rw [List.getLast?_append_cons, List.getLast?_singleton] at ht
      subst ht
      have hnext : (hp a).next = none := htn a (by rw [List.getLast?_append_cons]; rfl)
      have hhead : (unlink ⟨some p1, some a, hp⟩ a).head = some p1 := by
        simp [unlink, hprev, hp1a]
      have htail : (unlink ⟨some p1, some a, hp⟩ a).tail = some pl := by
        simp [unlink, hprev, hp1a]
      have hheap : (unlink ⟨some p1, some a, hp⟩ a).heap =
          fun x => if x = pl then { hp pl with next := none } else hp x := by
        funext x
        simp [unlink, hprev, hnext, hp1a]
      refine ⟨by rw [hhead]; simp [hp1.symm],
        by rw [htail, List.append_nil]; exact hgl1.symm, by simpa using hnd12, ?_, ?_, ?_⟩
      · rw [hheap]
        simp only [List.append_nil]
        refine chain'_adj_last_congr (h := hp) (by simp) ?_ hch1
        intro x hx
        have hxpl : x ≠ pl := fun h => hplinit (h ▸ hx)
        simp [hxpl]
      · intro x hx
        simp only [List.append_nil] at hx
        rw [hp1] at hx
        injection hx with hx
        subst hx
        rw [hheap]
        by_cases hppl : p1 = pl
        · subst hppl; simpa using hp1prev
        · simp [hppl, hp1prev]
      · intro x hx
        simp only [List.append_nil] at hx
        rw [hgl1] at hx
        injection hx with hx
        subst hx
        rw [hheap]
        simp
    · -- the node is interior
      obtain ⟨w, hw⟩ : ∃ w, (b :: t).getLast? = some w :=
        ⟨(b :: t).getLast (by simp), List.getLast?_eq_getLast _ _⟩
      rw [List.getLast?_append_cons, List.getLast?_cons_cons, hw] at ht
      subst ht
      have hwmem : w ∈ b :: t := List.mem_of_mem_getLast? hw
      have hwa : w ≠ a := fun h => ha2 (h ▸ hwmem)
      have hnext : (hp a).next = some b := ((List.chain'_cons.mp hch2).1).1
      have hchbt : List.Chain' (adj hp) (b :: t) := (List.chain'_cons.mp hch2).2
      have hdisj : (init ++ [pl]).Disjoint (b :: t) := List.disjoint_of_nodup_append hnd12
      have hndbt : (b :: t).Nodup := hnd12.of_append_right
      have hplb : pl ≠ b := fun h => hdisj hplmem (h ▸ List.mem_cons_self b t)
      have hp1b : p1 ≠ b := fun h => hdisj hp1mem (h ▸ List.mem_cons_self b t)
      have hhead : (unlink ⟨some p1, some w, hp⟩ a).head = some p1 := by
        simp [unlink, hprev, hnext, hp1a, hwa]
      have htail : (unlink ⟨some p1, some w, hp⟩ a).tail = some w := by
        simp [unlink, hprev, hnext, hp1a, hwa]
      have hheap : (unlink ⟨some p1, some w, hp⟩ a).heap =
          fun x => if x = b then { hp b with prev := some pl }
            else if x = pl then { hp pl with next := some b } else hp x := by
        funext x
        by_cases hxb : x = b
        · subst hxb
          simp [unlink, hprev, hnext, hp1a, hwa, hplb, Ne.symm hplb]
        · by_cases hxpl : x = pl
          · subst hxpl
            simp [unlink, hprev, hnext, hp1a, hwa, hplb, hxb]
          · simp [unlink, hprev, hnext, hp1a, hwa, hxb, hxpl]
      refine ⟨?_, ?_, hnd12, ?_, ?_, ?_⟩
      · rw [hhead, List.head?_append_of_ne_nil _ hl1ne, hp1]
      · rw [htail, List.getLast?_append_cons, hw]
      · rw [hheap, List.chain'_append]
        refine ⟨?_, ?_, ?_⟩
        · refine chain'_adj_last_congr (h := hp) (by simp [hplb]) ?_ hch1
          intro x hx
          have hxpl : x ≠ pl := fun h => hplinit (h ▸ hx)
          have hxb : x ≠ b := fun h => hdisj (List.mem_append_left _ hx)
            (h ▸ List.mem_cons_self b t)
          simp [hxpl, hxb]
        · refine chain'_adj_cons_congr (h := hp) (by simp) ?_ hchbt
          intro x hx
          have hxb : x ≠ b := fun h => (List.nodup_cons.mp hndbt).1 (h ▸ hx)
          have hxpl : x ≠ pl := fun h =>
            hdisj (h ▸ hplmem) (List.mem_cons_of_mem b hx)
          simp [hxb, hxpl]
        · intro x hx y hy
          rw [hgl1] at hx
          simp only [Option.mem_def, Option.some.injEq] at hx
          simp only [List.head?_cons, Option.mem_def, Option.some.injEq] at hy
          subst hx; subst hy
          constructor
          · simp [hplb]
          · simp
      · intro x hx
        rw [List.head?_append_of_ne_nil _ hl1ne, hp1] at hx
        injection hx with hx
        subst hx
        rw [hheap]
        by_cases hppl : p1 = pl
        · subst hppl; simp [hp1b, hp1prev]
        · simp [hp1b, hppl, hp1prev]
      · intro x hx
        rw [List.getLast?_append_cons, hw] at hx
        injection hx with hx
        subst hx
        have hwn : (hp w).next = none := htn w (by
          rw [List.getLast?_append_cons, List.getLast?_cons_cons, hw])
        rw [hheap]
        by_cases hwb : w = b
        · subst hwb; simpa using hwn
        · have hwpl : w ≠ pl := fun h => hdisj (h ▸ hplmem) hwmem
          simp [hwb, hwpl, hwn]

/-- The list split of `signal` at a walker position inside the list
preserves the invariant: the prefix from the head down to the split node
stays on the condvar. -/
lemma cvInv_signalSplit {c : Condvar} {l1 l2 : List Nat} {a : Nat}
    (hinv : cvInv c (l1 ++ a :: l2)) : cvInv (signalSplit c (some a)) (l1 ++ [a]) := by
  rcases c with ⟨ch, ct, hp⟩
  obtain ⟨hh, ht, hnd, hch, hhp, htn⟩ := hinv
  simp only at hh ht
  have hnd' := List.nodup_middle.mp hnd
  have ha12 : a ∉ l1 ++ l2 := (List.nodup_cons.mp hnd').1
  have ha1 : a ∉ l1 := fun h => ha12 (List.mem_append_left _ h)
  have ha2 : a ∉ l2 := fun h => ha12 (List.mem_append_right _ h)
  rcases l2 with _ | ⟨b, t⟩
  · -- the split is at the tail: the list is unchanged
    have hnext : (hp a).next = none := htn a (by rw [List.getLast?_concat])
    have hhead : (signalSplit ⟨ch, ct, hp⟩ (some a)).head = ch := by
      simp [signalSplit, hnext]
    have htail : (signalSplit ⟨ch, ct, hp⟩ (some a)).tail = some a := by
      simp [signalSplit, hnext]
    have hheap : (signalSplit ⟨ch, ct, hp⟩ (some a)).heap =
        fun x => if x = a then { hp a with next := none } else hp x := by
      funext x
      simp [signalSplit, hnext]
    refine ⟨by rw [hhead]; exact hh, by rw [htail, List.getLast?_concat], hnd, ?_, ?_, ?_⟩
    · rw [hheap]
      refine chain'_adj_last_congr (h := hp) (by simp) ?_ hch
      intro x hx
      have hxa : x ≠ a := fun h => ha1 (h ▸ hx)
      simp [hxa]
    · intro x hx
      rw [hheap]
      have hpx := hhp x hx
      simp only at hpx
      by_cases hxa : x = a
      · subst hxa; simpa using hpx
      · simp only [if_neg hxa]
        exact hpx
    · intro x hx
      rw [List.getLast?_concat] at hx
      injection hx with hx
      subst hx
      rw [hheap]
      simp
  · -- a non-empty suffix is detached
    rw [List.chain'_append] at hch
    obtain ⟨hch1, hch2, hjun⟩ := hch
    have hnext : (hp a).next = some b := ((List.chain'_cons.mp hch2).1).1
    have hab : a ≠ b := fun h => ha2 (h ▸ List.mem_cons_self b t)
    have hbl1 : b ∉ l1 := by
      have hdisj := List.disjoint_of_nodup_append (List.nodup_cons.mp hnd').2
      exact fun h => hdisj h (List.mem_cons_self b t)
    have hhead : (signalSplit ⟨ch, ct, hp⟩ (some a)).head = ch := by
      simp [signalSplit, hnext]
    have htail : (signalSplit ⟨ch, ct, hp⟩ (some a)).tail = some a := by
      simp [signalSplit, hnext]
    have hheap : (signalSplit ⟨ch, ct, hp⟩ (some a)).heap =
        fun x => if x = a then { hp a with next := none }
          else if x = b then { hp b with prev := none } else hp x := by
      funext x
      by_cases hxa : x = a
      · subst hxa
        simp [signalSplit, hnext, hab]
      · by_cases hxb : x = b
        · subst hxb
          simp [signalSplit, hnext, Ne.symm hab, hxa]
        · simp [signalSplit, hnext, hxa, hxb]
    have hsub : (l1 ++ [a]).Sublist (l1 ++ a :: b :: t) :=
      List.Sublist.append_left ((List.nil_sublist (b :: t)).cons₂ a) l1
    refine ⟨?_, by rw [htail, List.getLast?_concat], hnd.sublist hsub, ?_, ?_, ?_⟩
    · rw [hhead, hh]
      rcases l1 with _ | ⟨x, s⟩ <;> simp
    · rw [hheap, List.chain'_append]
      refine ⟨?_, by simp, ?_⟩
      · refine chain'_adj_congr (h := hp) ?_ hch1
        intro x hx
        have hxa : x ≠ a := fun h => ha1 (h ▸ hx)
        have hxb : x ≠ b := fun h => hbl1 (h ▸ hx)
        simp [hxa, hxb]
      · intro x hx y hy
        simp only [List.head?_cons, Option.mem_def, Option.some.injEq] at hy
        subst hy
        have hxmem : x ∈ l1 := List.mem_of_mem_getLast? hx
        have hxa : x ≠ a := fun h => ha1 (h ▸ hxmem)
        have hxb : x ≠ b := fun h => hbl1 (h ▸ hxmem)
        have hadj : adj hp x a := hjun x hx a rfl
        exact ⟨by simp [hxa, hxb, hadj.1], by simp [hadj.2]⟩
    · intro x hx
      rw [hheap]
      have hxfull : (l1 ++ a :: b :: t).head? = some x := by
        rcases l1 with _ | ⟨z, s⟩
        · simpa using hx
        · simpa using hx
      have hpx := hhp x hxfull
      simp only at hpx
      by_cases hxa : x = a
      · subst hxa; simpa using hpx
      · by_cases hxb : x = b
        · subst hxb
          simp only [if_neg hxa, if_pos rfl]
          simp [hpx]
        · simp only [if_neg hxa, if_neg hxb]
          exact hpx
    · intro x hx
      rw [List.getLast?_concat] at hx
      injection hx with hx
      subst hx
      rw [hheap]
      simp

/-- The list split of `signal` when the walk consumed the whole list leaves
the empty list, which satisfies the invariant. -/
lemma cvInv_signalSplit_none {c : Condvar} {l : List Nat}
    (_hinv : cvInv c l) : cvInv (signalSplit c none) [] :=
  ⟨rfl, rfl, List.nodup_nil, List.chain'_nil, by simp, by simp⟩

/-- The claiming walk exits immediately when `n = 0`, for any fuel. -/
lemma signalLoop_zero (h : Nat → Waiter) (p : Option Nat) (first : Option Nat)
    (ref : Nat) (cl : List Nat) (fuel : Nat) :
    signalLoop h p 0 first ref cl fuel = ⟨h, p, first, ref, cl⟩ := by
  cases fuel <;> simp [signalLoop]

/-- Splitting at the tail of a list satisfying the invariant changes
nothing. -/
lemma signalSplit_tail_eq {c : Condvar} {l : List Nat} (hinv : cvInv c l) :
    signalSplit c c.tail = c := by
  rcases c with ⟨ch, ct, hp⟩
  obtain ⟨hh, ht, hnd, hch, hhp, htn⟩ := hinv
  simp only at hh ht
  rcases List.eq_nil_or_concat' l with rfl | ⟨init, a, rfl⟩
  · simp only [List.head?_nil] at hh
    simp only [List.getLast?_nil] at ht
    subst hh; subst ht
    rfl
  · rw [List.getLast?_concat] at ht
    subst ht
    have hnext : (hp a).next = none := htn a (List.getLast?_concat _)
    have hheap : (signalSplit ⟨ch, some a, hp⟩ (some a)).heap = hp := by
      funext x
      by_cases hxa : x = a
      · subst hxa
        simp only [signalSplit, hnext, if_pos rfl]
        exact Waiter.ext rfl hnext.symm rfl rfl
      · simp [signalSplit, hnext, hxa]
    exact Condvar.ext rfl rfl hheap

/-- C9: `signal(cv, 0)` is a no-op on every condvar state satisfying the
list invariant: the walk claims nothing, `head`, `tail` and every waiter
node are unchanged, the `ref` rendezvous counter stays 0, and no waiter is
recorded as `first`, so no waiter's barrier is unlocked. -/
theorem signal_zero_noop (c : Condvar) (l : List Nat) (fuel : Nat)
    (hinv : cvInv c l) :
    signal c 0 fuel = (c, ⟨c.heap, c.tail, none, 0, []⟩) := by
  have hloop := signalLoop_zero c.heap c.tail none 0 [] fuel
  simp only [signal, hloop, Prod.mk.injEq]
  exact ⟨signalSplit_tail_eq hinv, trivial⟩

/-- C9 witness: evaluate `signal_zero_noop` on the empty condvar. -/
theorem signal_zero_noop_witness :
    signal ⟨none, none, fun _ => {}⟩ 0 3 =
      (⟨none, none, fun _ => {}⟩, ⟨fun _ => {}, none, none, 0, []⟩) :=
  signal_zero_noop ⟨none, none, fun _ => {}⟩ [] 3
    ⟨rfl, rfl, List.nodup_nil, List.chain'_nil, by simp, by simp⟩

/-- C5: the condvar list invariant — `head` and `tail` both null, or both
non-null with the chain of `prev` links from `tail` reaching `head` and the
`next` links forming the reverse chain — is preserved by the enqueue step of
`timedwait` (a fresh node), by a timed-out waiter's self-unlink (a node
anywhere in the list), and by the list split performed in `signal` (both at
a position inside the list and past the whole list). -/
theorem cv_list_invariant_preserved :
    (∀ (c : Condvar) (l : List Nat) (a : Nat),
        cvInv c l → a ∉ l → cvInv (enqueue c a) (a :: l)) ∧
    (∀ (c : Condvar) (l1 l2 : List Nat) (a : Nat),
        cvInv c (l1 ++ a :: l2) → cvInv (unlink c a) (l1 ++ l2)) ∧
    (∀ (c : Condvar) (l1 l2 : List Nat) (a : Nat),
        cvInv c (l1 ++ a :: l2) → cvInv (signalSplit c (some a)) (l1 ++ [a])) ∧
    (∀ (c : Condvar) (l : List Nat), cvInv c l → cvInv (signalSplit c none) []) :=
  ⟨fun _ _ _ h ha => cvInv_enqueue h ha,
   fun _ _ _ _ h => cvInv_unlink h,
   fun _ _ _ _ h => cvInv_signalSplit h,
   fun _ _ h => cvInv_signalSplit_none h⟩

/-- C5 witness: evaluate the enqueue conjunct of
`cv_list_invariant_preserved` on the empty condvar and node 0. -/
theorem cv_list_invariant_preserved_witness :
    cvInv (enqueue ⟨none, none, fun _ => {}⟩ 0) [0] :=
  cv_list_invariant_preserved.1 ⟨none, none, fun _ => {}⟩ [] 0
    ⟨rfl, rfl, List.nodup_nil, List.chain'_nil, by simp, by simp⟩ (by simp)

/-- C7: for every waiter in a detached chain (doubly linked, null `prev` at
the chain's head and null `next` at its tail), the `waiters_delta` passed to
`lock_with_waiters` equals +1 if the node has no `prev` plus −1 if it has no
`next` — that is, +1 exactly for the chain's head, −1 exactly for its tail,
0 for interior nodes, and 0 for a chain of one (head and tail coincide and
the contributions cancel). -/
theorem waiters_delta_characterization (h : Nat → Waiter) (dl : List Nat) (a : Nat)
    (hch : List.Chain' (adj h) dl)
    (hhead : ∀ x, dl.head? = some x → (h x).prev = none)
    (hlast : ∀ x, dl.getLast? = some x → (h x).next = none)
    (ha : a ∈ dl) :
    waitersDelta (h a) =
      (if dl.head? = some a then 1 else 0) +
        (if dl.getLast? = some a then -1 else 0) := by
  have h1 := prev_none_iff_head hch hhead ha
  have h2 := next_none_iff_getLast hch hlast ha
  simp only [waitersDelta]
  by_cases hpn : (h a).prev = none <;> by_cases hnn : (h a).next = none
  · simp [hpn, hnn, h1.mp hpn, h2.mp hnn]
  · have hne : ¬dl.getLast? = some a := fun hc => hnn (h2.mpr hc)
    simp [hpn, hnn, h1.mp hpn, hne]
  · have hne : ¬dl.head? = some a := fun hc => hpn (h1.mpr hc)
    simp [hpn, hnn, hne, h2.mp hnn]
  · have hne1 : ¬dl.head? = some a := fun hc => hpn (h1.mpr hc)
    have hne2 : ¬dl.getLast? = some a := fun hc => hnn (h2.mpr hc)
    simp [hpn, hnn, hne1, hne2]

/-- A two-node detached chain (node 0 is the chain's head, node 1 its
tail), used to evaluate the `waiters_delta` theorem concretely. -/
def sampleChainHeap : Nat → Waiter := fun x =>
  if x = 0 then { prev := none, next := some 1 }
  else if x = 1 then { prev := some 0, next := none } else {}

/-- C7 witness: evaluate `waiters_delta_characterization` at the head of the
two-node chain, where the delta is +1. -/
theorem waiters_delta_characterization_witness :
    waitersDelta (sampleChainHeap 0) =
      (if ([0, 1] : List Nat).head? = some 0 then 1 else 0) +
        (if ([0, 1] : List Nat).getLast? = some 0 then -1 else 0) :=
  waiters_delta_characterization sampleChainHeap [0, 1] 0
    (by simp [adj, sampleChainHeap])
    (by intro x hx; injection hx with hx; subst hx; simp [sampleChainHeap])
    (by intro x hx; simp only [List.getLast?_cons_cons, List.getLast?_singleton] at hx
        injection hx with hx; subst hx; simp [sampleChainHeap])
    (by simp)

/-- One step of the claiming walk at a WAITING node with `n ≠ 0`. -/
lemma signalLoop_step_waiting (h : Nat → Waiter) (a : Nat) (n : Int)
    (first : Option Nat) (ref : Nat) (cl : List Nat) (f : Nat)
    (hn : n ≠ 0) (hst : (h a).state = WAITING) :
    signalLoop h (some a) n first ref cl (f + 1) =
      signalLoop (fun x => if x = a then { h a with state := SIGNALED } else h x)
        (h a).prev (n - 1) (if first = none then some a else first) ref
        (cl ++ [a]) f := by
  simp [signalLoop, hn, hst]

/-- The claiming walk over a tail-to-head chain of `WAITING` waiters with
`n ≥ 0` claims exactly the first `n.toNat` nodes of the chain (in chain
order), marks them `SIGNALED`, records the first of them, and stops at the
next node. -/
lemma signalLoop_waiting (h : Nat → Waiter) (r : List Nat) (n : Int)
    (first : Option Nat) (ref : Nat) (cl : List Nat) (fuel : Nat)
    (hch : List.Chain' (fun x y => adj h y x) r)
    (hlast : ∀ x, r.getLast? = some x → (h x).prev = none)
    (hnd : r.Nodup)
    (hw : ∀ x ∈ r, (h x).state = WAITING)
    (hfuel : r.length ≤ fuel) (hn : 0 ≤ n) :
    signalLoop h r.head? n first ref cl fuel =
      ⟨fun x => if x ∈ r.take n.toNat then { h x with state := SIGNALED } else h x,
       (r.drop n.toNat).head?, first.or (r.take n.toNat).head?, ref,
       cl ++ r.take n.toNat⟩ := by
  induction r generalizing h n first cl fuel with
  | nil =>
    have hid : (fun x => if x ∈ ([] : List Nat).take n.toNat
        then { h x with state := SIGNALED } else h x) = h := by
      funext x; simp
    rw [hid]
    cases fuel <;> simp [signalLoop]
  | cons a rest ih =>
    cases fuel with
    | zero => simp at hfuel
    | succ f =>
      have hfuel' : rest.length ≤ f := by simpa using hfuel
      have hsta : (h a).state = WAITING := hw a (List.mem_cons_self a rest)
      have hanotin : a ∉ rest := (List.nodup_cons.mp hnd).1
      by_cases hn0 : n = 0
      · subst hn0
        rw [signalLoop_zero]
        have hid : (fun x => if x ∈ (a :: rest).take (0 : Int).toNat
            then { h x with state := SIGNALED } else h x) = h := by
          funext x; simp
        rw [hid]
        simp
      · have hprevlink : (h a).prev = rest.head? := by
          rcases rest with _ | ⟨b, t⟩
          · exact hlast a rfl
          · exact ((List.chain'_cons.mp hch).1).2
        rw [List.head?_cons,
          signalLoop_step_waiting h a n first ref cl f hn0 hsta, hprevlink]
        have hoff : ∀ x ∈ rest,
            (fun y => if y = a then { h a with state := SIGNALED } else h y) x = h x := by
          intro x hx
          have hxa : x ≠ a := fun heq => hanotin (heq ▸ hx)
          simp [hxa]
        have hch' : List.Chain'
            (fun x y => adj (fun z => if z = a then { h a with state := SIGNALED } else h z) y x)
            rest := by
          refine chain'_imp_mem (fun x hx y hy hxy => ?_) hch.tail
          show ((fun z => if z = a then { h a with state := SIGNALED } else h z) y).next = some x ∧
            ((fun z => if z = a then { h a with state := SIGNALED } else h z) x).prev = some y
          rw [hoff y hy, hoff x hx]
          exact hxy
        have hlast' : ∀ x, rest.getLast? = some x →
            ((fun z => if z = a then { h a with state := SIGNALED } else h z) x).prev = none := by
          intro x hx
          rw [hoff x (List.mem_of_mem_getLast? hx)]
          refine hlast x ?_
          rcases rest with _ | ⟨b, t⟩
          · simp at hx
          · rw [List.getLast?_cons_cons]; exact hx
        have hw' : ∀ x ∈ rest,
            ((fun z => if z = a then { h a with state := SIGNALED } else h z) x).state =
              WAITING := by
          intro x hx
          rw [hoff x hx]
          exact hw x (List.mem_cons_of_mem a hx)
        rw [ih _ (n - 1) _ _ f hch' hlast' (List.nodup_cons.mp hnd).2 hw' hfuel' (by omega)]
        have hTake : (a :: rest).take n.toNat = a :: rest.take (n - 1).toNat := by
          have htk : n.toNat = (n - 1).toNat + 1 := by omega
          rw [htk, List.take_succ_cons]
        have hDrop : (a :: rest).drop n.toNat = rest.drop (n - 1).toNat := by
          have htk : n.toNat = (n - 1).toNat + 1 := by omega
          rw [htk, List.drop_succ_cons]
        simp only [SignalRes.mk.injEq, hTake, hDrop]
        refine ⟨?_, by trivial, ?_, by trivial, by simp⟩
        · funext x
          by_cases hxa : x = a
          · subst hxa
            have hnotintk : x ∉ rest.take (n - 1).toNat := fun hmem =>
              hanotin ((List.take_sublist _ _).mem hmem)
            simp [hnotintk]
          · simp only [List.mem_cons, hxa, false_or, if_neg hxa]
            by_cases hmem : x ∈ rest.take (n - 1).toNat <;> simp [hmem, hxa]
        · rcases first with _ | f0 <;> simp

/-- The claiming walk with negative `n` (the broadcast case `n = -1`)
claims the entire chain. -/
lemma signalLoop_waiting_neg (h : Nat → Waiter) (r : List Nat) (n : Int)
    (first : Option Nat) (ref : Nat) (cl : List Nat) (fuel : Nat)
    (hch : List.Chain' (fun x y => adj h y x) r)
    (hlast : ∀ x, r.getLast? = some x → (h x).prev = none)
    (hnd : r.Nodup)
    (hw : ∀ x ∈ r, (h x).state = WAITING)
    (hfuel : r.length ≤ fuel) (hn : n < 0) :
    signalLoop h r.head? n first ref cl fuel =
      ⟨fun x => if x ∈ r then { h x with state := SIGNALED } else h x,
       none, first.or r.head?, ref, cl ++ r⟩ := by
  induction r generalizing h n first cl fuel with
  | nil =>
    have hid : (fun x => if x ∈ ([] : List Nat)
        then { h x with state := SIGNALED } else h x) = h := by
      funext x; simp
    rw [hid]
    cases fuel <;> simp [signalLoop]
  | cons a rest ih =>
    cases fuel with
    | zero => simp at hfuel
    | succ f =>
      have hfuel' : rest.length ≤ f := by simpa using hfuel
      have hsta : (h a).state = WAITING := hw a (List.mem_cons_self a rest)
      have hanotin : a ∉ rest := (List.nodup_cons.mp hnd).1
      have hn0 : n ≠ 0 := by omega
      have hprevlink : (h a).prev = rest.head? := by
        rcases rest with _ | ⟨b, t⟩
        · exact hlast a rfl
        · exact ((List.chain'_cons.mp hch).1).2
      rw [List.head?_cons,
        signalLoop_step_waiting h a n first ref cl f hn0 hsta, hprevlink]
      have hoff : ∀ x ∈ rest,
          (fun y => if y = a then { h a with state := SIGNALED } else h y) x = h x := by
        intro x hx
        have hxa : x ≠ a := fun heq => hanotin (heq ▸ hx)
        simp [hxa]
      have hch' : List.Chain'
          (fun x y => adj (fun z => if z = a then { h a with state := SIGNALED } else h z) y x)
          rest := by
        refine chain'_imp_mem (fun x hx y hy hxy => ?_) hch.tail
        show ((fun z => if z = a then { h a with state := SIGNALED } else h z) y).next = some x ∧
          ((fun z => if z = a then { h a with state := SIGNALED } else h z) x).prev = some y
        rw [hoff y hy, hoff x hx]
        exact hxy
      have hlast' : ∀ x, rest.getLast? = some x →
          ((fun z => if z = a then { h a with state := SIGNALED } else h z) x).prev = none := by
        intro x hx
        rw [hoff x (List.mem_of_mem_getLast? hx)]
        refine hlast x ?_
        rcases rest with _ | ⟨b, t⟩
        · simp at hx
        · rw [List.getLast?_cons_cons]; exact hx
      have hw' : ∀ x ∈ rest,
          ((fun z => if z = a then { h a with state := SIGNALED } else h z) x).state =
            WAITING := by
        intro x hx
        rw [hoff x hx]
        exact hw x (List.mem_cons_of_mem a hx)
      rw [ih _ (n - 1) _ _ f hch' hlast' (List.nodup_cons.mp hnd).2 hw' hfuel' (by omega)]
      simp only [SignalRes.mk.injEq]
      refine ⟨?_, by trivial, ?_, by trivial, by simp⟩
      · funext x
        by_cases hxa : x = a
        · subst hxa
          simp [hanotin]
        · simp only [List.mem_cons, hxa, false_or, if_neg hxa]
          by_cases hmem : x ∈ rest <;> simp [hmem, hxa]
      · rcases first with _ | f0 <;> simp

/-- The split step never changes a node's `state` field. -/
lemma signalSplit_state (c : Condvar) (p : Option Nat) (x : Nat) :
    ((signalSplit c p).heap x).state = (c.heap x).state := by
  rcases p with _ | a
  · rfl
  · rcases hq : (c.heap a).next with _ | q
    · by_cases hxa : x = a <;> simp [signalSplit, hq, hxa]
    · by_cases hxa : x = a
      · subst hxa
        by_cases hxq : x = q
        · subst hxq
          simp [signalSplit, hq]
        · simp [signalSplit, hq, hxq]
      · by_cases hxq : x = q
        · subst hxq
          simp [signalSplit, hq, hxa]
        · simp [signalSplit, hq, hxa, hxq]

/-- Projection of `signal`: the walk result. -/
lemma signal_snd (c : Condvar) (n : Int) (fuel : Nat) :
    (signal c n fuel).2 = signalLoop c.heap c.tail n none 0 [] fuel := rfl

/-- Projection of `signal`: the final condvar state. -/
lemma signal_fst (c : Condvar) (n : Int) (fuel : Nat) :
    (signal c n fuel).1 =
      signalSplit { c with heap := (signalLoop c.heap c.tail n none 0 [] fuel).heap }
        (signalLoop c.heap c.tail n none 0 [] fuel).p := rfl

/-- C3: for a condvar holding `m` waiters that are all `WAITING` (none
concurrently leaving), `signal(cv, n)` walks the list from the tail toward
the head and transitions exactly `min(n, m)` waiters from `WAITING` to
`SIGNALED` when `n ≥ 0` (`l.reverse.take n.toNat` lists them oldest-first,
and its length is `min n m`), and transitions all `m` waiters when
`n = -1`; the waiters claimed are exactly the `min(n, m)` oldest ones
(the tail-first prefix of the queue), and no other node's state changes. -/
theorem signal_claims_min_oldest (c : Condvar) (l : List Nat) (n : Int) (fuel : Nat)
    (hinv : cvInv c l) (hw : ∀ x ∈ l, (c.heap x).state = WAITING)
    (hfuel : l.length ≤ fuel) :
    (0 ≤ n →
      (signal c n fuel).2.claimed = l.reverse.take n.toNat ∧
      (signal c n fuel).2.claimed.length = min n.toNat l.length ∧
      (∀ x, ((signal c n fuel).1.heap x).state =
        if x ∈ l.reverse.take n.toNat then SIGNALED else (c.heap x).state)) ∧
    (n = -1 →
      (signal c n fuel).2.claimed = l.reverse ∧
      (∀ x, ((signal c n fuel).1.heap x).state =
        if x ∈ l.reverse then SIGNALED else (c.heap x).state)) := by
  obtain ⟨hh, ht, hnd, hch, hhp, htn⟩ := hinv
  have hchr : List.Chain' (fun x y => adj c.heap y x) l.reverse := by
    rw [List.chain'_reverse]
    exact hch
  have hlastr : ∀ x, l.reverse.getLast? = some x → (c.heap x).prev = none := by
    intro x hx
    rw [List.getLast?_reverse] at hx
    exact hhp x hx
  have hndr : l.reverse.Nodup := List.nodup_reverse.mpr hnd
  have hwr : ∀ x ∈ l.reverse, (c.heap x).state = WAITING := fun x hx =>
    hw x (List.mem_reverse.mp hx)
  have hfr : l.reverse.length ≤ fuel := by simpa using hfuel
  have htr : c.tail = l.reverse.head? := by rw [List.head?_reverse]; exact ht
  constructor
  · intro hn
    have hloop := signalLoop_waiting c.heap l.reverse n none 0 [] fuel
      hchr hlastr hndr hwr hfr hn
    rw [← htr] at hloop
    refine ⟨?_, ?_, ?_⟩
    · rw [signal_snd, hloop]
      simp
    · rw [signal_snd, hloop]
      simp
    · intro x
      rw [signal_fst, signalSplit_state]
      simp only [hloop]
      by_cases hmem : x ∈ l.reverse.take n.toNat <;> simp [hmem]
  · intro hn
    subst hn
    have hloop := signalLoop_waiting_neg c.heap l.reverse (-1) none 0 [] fuel
      hchr hlastr hndr hwr hfr (by omega)
    rw [← htr] at hloop
    refine ⟨?_, ?_⟩
    · rw [signal_snd, hloop]
      simp
    · intro x
      rw [signal_fst, signalSplit_state]
      simp only [hloop]
      by_cases hmem : x ∈ l.reverse <;> simp [hmem]

/-- C3 witness: evaluate `signal_claims_min_oldest` on a condvar with one
WAITING waiter and `n = 1`. -/
theorem signal_claims_min_oldest_witness :
    (signal ⟨some 0, some 0, fun _ => {}⟩ 1 1).2.claimed =
      ([0] : List Nat).reverse.take (1 : Int).toNat :=
  (((signal_claims_min_oldest ⟨some 0, some 0, fun _ => {}⟩ [0] 1 1
      ⟨rfl, by simp, by simp, by simp,
        fun x hx => by injection hx with hx; subst hx; rfl,
        fun x hx => by simp only [List.getLast?_singleton] at hx
                       injection hx with hx; subst hx; rfl⟩
      (fun x _ => rfl) (by simp)).1) (by omega)).1

/-! ## Theorems for the fence and the scalar condvar helpers -/

/-- C1: in the execution where the kernel futex wait returns `TIMED_OUT`, a
concurrent `signal` has already moved `node.state` to `SIGNALED` (so the CAS
`WAITING → LEAVING` fails), and `lock_with_waiters` succeeds, `timedwait`
returns `ZX_ERR_TIMED_OUT` — not `ZX_OK` as the claim states: the wait-loop
status is never reset to `ZX_OK` on the signaled wake path, so the consumed
signal is reported as a timeout. -/
theorem timedwait_timeout_signaled_race :
    waitLoop [(ZX_ERR_TIMED_OUT, LOCKED_MAYBE_WAITERS)] = some ZX_ERR_TIMED_OUT ∧
    timedwaitStatus ZX_ERR_TIMED_OUT SIGNALED false false = ZX_ERR_TIMED_OUT ∧
    timedwaitStatus ZX_ERR_TIMED_OUT SIGNALED false false ≠ ZX_OK := by
  refine ⟨rfl, rfl, ?_⟩
  simp [timedwaitStatus, SIGNALED, WAITING, ZX_ERR_TIMED_OUT, ZX_OK]

/-- C2 counterexample: `Fence::CreateRef` does not leave the fence state
unchanged on allocation failure — starting from a fence whose `cur_ref_` is
reference 5, a failed `CreateRef` returns `false` but overwrites `cur_ref_`
with the null reference, so `cur_ref_` no longer refers to reference 5. -/
theorem create_ref_failure_drops_cur_ref :
    (Fence.createRef { cur_ref := some 5, ref_count := 1 } false 7).2 = false ∧
    (Fence.createRef { cur_ref := some 5, ref_count := 1 } false 7).1.cur_ref ≠ some 5 := by
  refine ⟨rfl, ?_⟩
  simp [Fence.createRef]

/-- C2 (amended): on allocation failure `Fence::CreateRef` returns `false`,
does not increment `ref_count_`, and leaves `armed_refs_` and the reference
heap unchanged, but it overwrites `cur_ref_` with the null reference (the
previous current reference is dropped from the slot). -/
theorem create_ref_alloc_failure (s : Fence) (r : Nat) :
    (Fence.createRef s false r).2 = false ∧
    (Fence.createRef s false r).1.ref_count = s.ref_count ∧
    (Fence.createRef s false r).1.cur_ref = none ∧
    (Fence.createRef s false r).1.armed_refs = s.armed_refs ∧
    (Fence.createRef s false r).1.refHeap = s.refHeap := by
  simp [Fence.createRef]

/-- C4: with a non-empty `armed_refs_` queue, `Fence::OnReady` emits exactly,
in order: the clear of the SIGNALLED bit; one signal per release-chain target
of the popped head reference (first `release_fence1_`, then
`release_fence2_`, skipping absent ones); the `OnFenceFired` callback for
the popped reference; and a re-registration of the async wait iff the queue
is still non-empty.  Both chain-target signals precede `OnFenceFired` in the
trace, the head is popped, and the popped reference's chain handles are
nulled. -/
theorem fence_on_ready_steps (s : Fence) (r : Nat) (rest : List Nat)
    (h : s.armed_refs = r :: rest) :
    (Fence.onReady s).1 =
      FEvent.clearSignaled ::
        (((s.refHeap r).release_fence1.toList ++ (s.refHeap r).release_fence2.toList).map
            FEvent.signalTarget
          ++ [FEvent.fenceFired r]
          ++ (if rest = [] then [] else [FEvent.beginWait])) ∧
    (Fence.onReady s).2.armed_refs = rest ∧
    ((Fence.onReady s).2.refHeap r).release_fence1 = none ∧
    ((Fence.onReady s).2.refHeap r).release_fence2 = none := by
  rcases s with ⟨cr, rc, ar, hp⟩
  subst h
  rcases h1 : (hp r).release_fence1 with _ | t1 <;>
    rcases h2 : (hp r).release_fence2 with _ | t2 <;>
      simp [Fence.onReady, FenceReference.onReady, h1, h2, List.isEmpty_iff]

/-- A sample fence with a single armed reference 1 holding chain targets
8 and 9, used to evaluate the `Fence::OnReady` theorem concretely. -/
def sampleFence : Fence where
  armed_refs := [1]
  refHeap := fun _ => { release_fence1 := some 8, release_fence2 := some 9 }

/-- C4 witness: evaluate `fence_on_ready_steps` on a concrete fence whose
single armed reference 1 has chain targets 8 and 9. -/
theorem fence_on_ready_steps_witness :
    (Fence.onReady sampleFence).1 =
      FEvent.clearSignaled ::
        (((sampleFence.refHeap 1).release_fence1.toList
            ++ (sampleFence.refHeap 1).release_fence2.toList).map FEvent.signalTarget
          ++ [FEvent.fenceFired 1]
          ++ (if ([] : List Nat) = [] then [] else [FEvent.beginWait])) :=
  (fence_on_ready_steps sampleFence 1 [] rfl).1

/-- C6: `StartReadyWait` / `Fence::OnRefArmed` attempts the async-wait
registration iff `armed_refs_` is empty at the call; when the registration
fails its status is returned verbatim and the fence state (in particular the
queue) is unchanged; otherwise the reference is appended at the back and
`ZX_OK` is returned. -/
theorem start_ready_wait_registration (s : Fence) (r : Nat) (st : Int) :
    (FEvent.beginWait ∈ (Fence.onRefArmed s r st).1 ↔ s.armed_refs = []) ∧
    (s.armed_refs = [] → st ≠ ZX_OK →
      (Fence.onRefArmed s r st).2.2 = st ∧ (Fence.onRefArmed s r st).2.1 = s) ∧
    (s.armed_refs = [] → st = ZX_OK →
      (Fence.onRefArmed s r st).2.1.armed_refs = s.armed_refs ++ [r] ∧
      (Fence.onRefArmed s r st).2.2 = ZX_OK) ∧
    (s.armed_refs ≠ [] →
      (Fence.onRefArmed s r st).2.1.armed_refs = s.armed_refs ++ [r] ∧
      (Fence.onRefArmed s r st).2.2 = ZX_OK) := by
  by_cases he : s.armed_refs = [] <;>
    by_cases hst : st = ZX_OK <;>
      simp [Fence.onRefArmed, he, hst, List.isEmpty_iff]

/-- C6 witness: evaluate `start_ready_wait_registration` on an empty fence
with a failing registration status. -/
theorem start_ready_wait_registration_witness :
    (Fence.onRefArmed ({} : Fence) 3 ZX_ERR_BAD_STATE).2.2 = ZX_ERR_BAD_STATE ∧
    (Fence.onRefArmed ({} : Fence) 3 ZX_ERR_BAD_STATE).2.1 = ({} : Fence) :=
  (start_ready_wait_registration ({} : Fence) 3 ZX_ERR_BAD_STATE).2.1 rfl
    (by simp [ZX_ERR_BAD_STATE, ZX_OK])

/-- C10: when `armed_refs_` is non-empty at the call, `Fence::OnRefArmed`
returns `ZX_OK` for every possible dispatcher status, attempts no
registration (empty trace), and unconditionally appends the reference at the
back. -/
theorem on_ref_armed_nonempty_ok (s : Fence) (r : Nat) (st : Int)
    (h : s.armed_refs ≠ []) :
    Fence.onRefArmed s r st = ([], { s with armed_refs := s.armed_refs ++ [r] }, ZX_OK) := by
  simp [Fence.onRefArmed, List.isEmpty_iff, h]

/-- C10 witness: evaluate `on_ref_armed_nonempty_ok` on a fence with one
armed reference and a failing dispatcher status. -/
theorem on_ref_armed_nonempty_ok_witness :
    Fence.onRefArmed ({ armed_refs := [2] } : Fence) 3 ZX_ERR_BAD_STATE =
      ([], { ({ armed_refs := [2] } : Fence) with armed_refs := [2] ++ [3] }, ZX_OK) :=
  on_ref_armed_nonempty_ok ({ armed_refs := [2] } : Fence) 3 ZX_ERR_BAD_STATE (by simp)

/-- C8: `unlock` always leaves the word `UNLOCKED` and issues a single futex
wake of one thread iff the exchanged-out value was `LOCKED_MAYBE_WAITERS`
(and no wake otherwise); and whenever the spin phase of `wait` falls through
to the futex-wait phase it has performed exactly 100 re-checking loads of the
word. -/
theorem unlock_and_spin_behavior :
    (∀ v : Nat, (unlock v).1 = UNLOCKED ∧
      ((unlock v).2 = [1] ↔ v = LOCKED_MAYBE_WAITERS) ∧
      (v ≠ LOCKED_MAYBE_WAITERS → (unlock v).2 = [])) ∧
    (∀ (load : Nat → Nat) (cur : Nat),
      (waitSpinPhase load cur).2 = true → (waitSpinPhase load cur).1 = 100) := by
  constructor
  · intro v
    refine ⟨rfl, ?_, ?_⟩ <;> by_cases hv : v = LOCKED_MAYBE_WAITERS <;> simp [unlock, hv]
  · intro load cur
    have key : ∀ (k i : Nat), (spinChecks load cur i k).2 = true →
        (spinChecks load cur i k).1 = i + k := by
      intro k
      induction k with
      | zero => intro i _; simp [spinChecks]
      | succ m ih =>
        intro i h
        by_cases hl : load i = cur
        · have h2 : spinChecks load cur i (m + 1) = spinChecks load cur (i + 1) m := by
            simp [spinChecks, hl]
          rw [h2] at h ⊢
          rw [ih (i + 1) h]
          omega
        · simp [spinChecks, hl] at h
    intro h
    exact key 100 0 h

/-- C8 witness: evaluate `unlock_and_spin_behavior` at the contended word
value and at a load oracle that always observes the expected value. -/
theorem unlock_and_spin_behavior_witness :
    (unlock 2).1 = UNLOCKED ∧ (waitSpinPhase (fun _ => 0) 0).1 = 100 :=
  ⟨(unlock_and_spin_behavior.1 2).1,
    unlock_and_spin_behavior.2 (fun _ => 0) 0 (by decide)⟩

end Zircon
